import Mathlib

/-!
Verification development for the PII-detection streaming backend (`prod.py`).

The development shallowly embeds the program:

* `Json` / `Json.parse` model the JSON values and the strict parser
  `json.loads` on the fragment the program exchanges (objects, arrays,
  strings with simple escapes, integers, booleans, null; trailing
  whitespace only).  `json.loads` rejects any string our parser rejects on
  the inputs appearing in this file; floats, `\uXXXX` escapes and the
  leading-zero restriction are outside the exchanged fragment and are not
  modelled.
* `split_into_chunks` embeds the chunker.
* `stepDelta`, `runDeltas`, `finalizeDone`, `runChunk`, `runChunksAcc` and
  `get_response_stream` embed the streaming reconstruction generator,
  with the model's delta streams supplied as an explicit oracle
  (`List (List String)`, one delta list per model invocation, each
  terminated by the stream's done signal).
* `detect` / `abstract` embed the two HTTP handlers.

Exceptions that Python would let escape the generator (`KeyError` /
`TypeError` from an unexpectedly-shaped parse) are modelled by
`StepResult.raise` and the `raised` flag.
-/

/-- JSON values as produced by `json.loads`: objects keep key insertion
order and (like Python dicts) hold each key at most once. -/
inductive Json where
  | null : Json
  | bool (b : Bool) : Json
  | num (n : Int) : Json
  | str (s : String) : Json
  | arr (elems : List Json) : Json
  | obj (kvs : List (String × Json)) : Json

/-- The character `"` (written via its code to keep literals simple). -/
def dquoteC : Char := Char.ofNat 34

/-- The character `\`. -/
def bslashC : Char := Char.ofNat 92

/-- The character `{`. -/
def lbraceC : Char := Char.ofNat 123

/-- The character `}`. -/
def rbraceC : Char := Char.ofNat 125

/-- Skip JSON whitespace. -/
def skipWs (l : List Char) : List Char := l.dropWhile Char.isWhitespace

/-- Single-character escapes accepted inside JSON strings. -/
def escCharMap (e : Char) : Option Char :=
  if e == dquoteC then some dquoteC
  else if e == bslashC then some bslashC
  else if e == '/' then some '/'
  else if e == 'n' then some (Char.ofNat 10)
  else if e == 't' then some (Char.ofNat 9)
  else if e == 'r' then some (Char.ofNat 13)
  else if e == 'b' then some (Char.ofNat 8)
  else if e == 'f' then some (Char.ofNat 12)
  else none

/-- Parse the tail of a JSON string (the opening quote already consumed);
returns the decoded characters and the remaining input. -/
def parseStrChars : List Char → Option (List Char × List Char)
  | [] => none
  | c :: cs =>
    if c == dquoteC then some ([], cs)
    else if c == bslashC then
      match cs with
      | [] => none
      | e :: cs2 =>
        match escCharMap e with
        | none => none
        | some ec =>
          match parseStrChars cs2 with
          | none => none
          | some (s1, rest) => some (ec :: s1, rest)
    else
      match parseStrChars cs with
      | none => none
      | some (s1, rest) => some (c :: s1, rest)

/-- Decimal digits to a natural number. -/
def digitsToNat (ds : List Char) : Nat :=
  ds.foldl (fun acc c => acc * 10 + (c.toNat - 48)) 0

/-- Parse a JSON integer starting at `l` (optional minus sign). -/
def parseNumber (l : List Char) : Option (Json × List Char) :=
  match l with
  | '-' :: rest =>
    let ds := rest.takeWhile Char.isDigit
    if ds.isEmpty then none
    else some (.num (-(digitsToNat ds : Int)), rest.dropWhile Char.isDigit)
  | _ =>
    let ds := l.takeWhile Char.isDigit
    if ds.isEmpty then none
    else some (.num (digitsToNat ds : Int), l.dropWhile Char.isDigit)

/-- Python dict assignment on an association list: overwrite in place when
the key is present, append otherwise.  `json.loads` builds objects this
way, so duplicate keys collapse to the last occurrence. -/
def objInsert (kvs : List (String × Json)) (k : String) (v : Json) :
    List (String × Json) :=
  if ∃ kv ∈ kvs, kv.1 = k then
    kvs.map (fun kv => if kv.1 = k then (k, v) else kv)
  else kvs ++ [(k, v)]

mutual

/-- Fuel-indexed recursive-descent JSON value parser. -/
def parseVal : Nat → List Char → Option (Json × List Char)
  | 0, _ => none
  | fuel + 1, l =>
    match skipWs l with
    | [] => none
    | c :: rest =>
      if c == lbraceC then
        match skipWs rest with
        | [] => none
        | c2 :: r2 => if c2 == rbraceC then some (.obj [], r2)
                      else parseObjMembers fuel rest []
      else if c == '[' then
        match skipWs rest with
        | [] => none
        | c2 :: r2 => if c2 == ']' then some (.arr [], r2)
                      else parseArrElems fuel rest []
      else if c == dquoteC then
        match parseStrChars rest with
        | none => none
        | some (cs, r) => some (.str (String.mk cs), r)
      else if c == 't' then
        if rest.take 3 == ['r', 'u', 'e'] then some (.bool true, rest.drop 3)
        else none
      else if c == 'f' then
        if rest.take 4 == ['a', 'l', 's', 'e'] then some (.bool false, rest.drop 4)
        else none
      else if c == 'n' then
        if rest.take 3 == ['u', 'l', 'l'] then some (.null, rest.drop 3)
        else none
      else if c == '-' || c.isDigit then parseNumber (c :: rest)
      else none

/-- Array elements after at least one element is required. -/
def parseArrElems : Nat → List Char → List Json → Option (Json × List Char)
  | 0, _, _ => none
  | fuel + 1, l, acc =>
    match parseVal fuel l with
    | none => none
    | some (v, r) =>
      match skipWs r with
      | [] => none
      | c :: r2 =>
        if c == ',' then parseArrElems fuel r2 (acc ++ [v])
        else if c == ']' then some (.arr (acc ++ [v]), r2)
        else none

/-- Object members after at least one member is required. -/
def parseObjMembers : Nat → List Char → List (String × Json) →
    Option (Json × List Char)
  | 0, _, _ => none
  | fuel + 1, l, acc =>
    match skipWs l with
    | [] => none
    | c :: r =>
      if c == dquoteC then
        match parseStrChars r with
        | none => none
        | some (kcs, r2) =>
          match skipWs r2 with
          | [] => none
          | c2 :: r3 =>
            if c2 == ':' then
              match parseVal fuel r3 with
              | none => none
              | some (v, r4) =>
                let acc' := objInsert acc (String.mk kcs) v
                match skipWs r4 with
                | [] => none
                | c3 :: r5 =>
                  if c3 == ',' then parseObjMembers fuel r5 acc'
                  else if c3 == rbraceC then some (.obj acc', r5)
                  else none
            else none
      else none

end

/-- `json.loads`: parse one JSON value and require only whitespace after
it; `none` is a `json.JSONDecodeError`. -/
def Json.parse (s : String) : Option Json :=
  match parseVal (2 * s.data.length + 8) s.data with
  | none => none
  | some (v, rest) => if (skipWs rest).isEmpty then some v else none

/-- First-match association-list lookup (parser output holds each key at
most once, so this is Python dict lookup). -/
def lookupKey : List (String × Json) → String → Option Json
  | [], _ => none
  | (k, v) :: kvs, key => if k = key then some v else lookupKey kvs key

/-- `parsed_content["results"]` followed by the list concatenation
`results + parsed_content["results"]` (line 104): defined (`some`) exactly
when the value is a dict holding a list under `"results"`; every other
shape raises an uncaught `KeyError`/`TypeError` in Python (`none`). -/
def resultsField (j : Json) : Option (List Json) :=
  match j with
  | .obj kvs =>
    match lookupKey kvs "results" with
    | some (.arr l) => some l
    | _ => none
  | _ => none

/-- `parsed_content["results"] = newList` (line 104's dict assignment). -/
def setResults (j : Json) (l : List Json) : Json :=
  match j with
  | .obj kvs => .obj (objInsert kvs "results" (.arr l))
  | other => other

/-- `results.extend(v)` iterability (line 92): lists extend with their
elements, strings with their characters, dicts with their keys; numbers,
booleans and null raise `TypeError` (`none`). -/
def extendElems (v : Json) : Option (List Json) :=
  match v with
  | .arr l => some l
  | .str t => some (t.data.map (fun c => Json.str (String.mk [c])))
  | .obj kvs => some (kvs.map (fun kv => Json.str kv.1))
  | _ => none

/-- `json.loads(last_parsed_content)["results"]` as iterated by
`results.extend` (line 92): `none` models the uncaught
`KeyError`/`TypeError` when the parsed value is not a dict or lacks an
iterable under `"results"`. -/
def resultsExtendField (j : Json) : Option (List Json) :=
  match j with
  | .obj kvs => (lookupKey kvs "results").bind extendElems
  | _ => none

/-- Python's `c in s` for a single-character needle. -/
def containsChar (s : String) (c : Char) : Bool := s.data.contains c

/-- `s[:s.rfind(c)]`: everything strictly before the last occurrence of
`c`.  The program only evaluates this under a guard that puts `c` in `s`,
so `rfind` never returns `-1` there; absent `c` this model returns `[]`. -/
def takeBeforeLast (c : Char) (l : List Char) : List Char :=
  ((l.reverse.dropWhile (fun x => x != c)).drop 1).reverse

/-- Line 101: the prefix-repair of `temp_prefix = buffer + content`,
truncating at the last `]` when the delta contains `]` and at the last
`}` otherwise, then appending the closing tokens. -/
def repairJsonStr (buffer content : String) : String :=
  if containsChar content ']' then
    String.mk (takeBeforeLast ']' (buffer ++ content).data) ++ "]\x7d"
  else
    String.mk (takeBeforeLast rbraceC (buffer ++ content).data) ++ "\x7d]\x7d"

/-- Per-invocation mutable state: the accumulation `buffer` and
`last_parsed_content` (the most recent repaired string handed to
`json.loads`, whether or not that parse succeeded). -/
structure ChunkState where
  buffer : String
  lastParsed : String
deriving Repr

/-- Outcome of handling one non-done delta: no snapshot, one emitted
snapshot, or an uncaught Python exception escaping the generator. -/
inductive StepResult where
  | noEmit (s : ChunkState) : StepResult
  | emit (snap : Json) (s : ChunkState) : StepResult
  | raise : StepResult

/-- Lines 97-114: handle one delta `content`.  With a closing bracket or
brace present, repair and parse; on `JSONDecodeError` the delta is
dropped (`buffer += content` sits inside the `try` and is skipped), on
success the merged snapshot is yielded and the buffer extended, and an
unexpectedly-shaped parse raises out of the generator.  Without a closing
character the delta is only accumulated. -/
def stepDelta (results : List Json) (s : ChunkState) (content : String) :
    StepResult :=
  if containsChar content ']' || containsChar content rbraceC then
    match Json.parse (repairJsonStr s.buffer content) with
    | none => .noEmit ⟨s.buffer, repairJsonStr s.buffer content⟩
    | some j =>
      match resultsField j with
      | none => .raise
      | some l =>
        .emit (setResults j (results ++ l))
          ⟨s.buffer ++ content, repairJsonStr s.buffer content⟩
  else
    .noEmit ⟨s.buffer ++ content, s.lastParsed⟩

/-- `buffer = ""` and `last_parsed_content = ""` (lines 77-78). -/
def initState : ChunkState := ⟨"", ""⟩

/-- Drive one invocation's non-done deltas; returns the emitted snapshots
in order, the final state, and whether an exception escaped (aborting the
rest of the stream). -/
def runDeltas (results : List Json) (ds : List String) (s : ChunkState) :
    List Json × ChunkState × Bool :=
  match ds with
  | [] => ([], s, false)
  | d :: ds' =>
    match stepDelta results s d with
    | .noEmit s' => runDeltas results ds' s'
    | .emit snap s' =>
      let out := runDeltas results ds' s'
      (snap :: out.1, out.2.1, out.2.2)
    | .raise => ([], s, true)

/-- Lines 90-95: on the stream's done signal, parse `last_parsed_content`
once more; `JSONDecodeError` is caught (the chunk contributes nothing),
a well-shaped parse extends the running total, and an unexpected shape
raises (`none`). -/
def finalizeDone (results : List Json) (lastParsed : String) :
    Option (List Json) :=
  match Json.parse lastParsed with
  | none => some results
  | some j => (resultsExtendField j).map (fun l => results ++ l)

/-- Result of one whole model invocation. -/
structure ChunkOut where
  snaps : List Json
  results : List Json
  raised : Bool

/-- One full invocation: the delta stream `ds` followed by the done
signal.  If an exception escaped, the running total is left as it was and
the generator is dead (`raised`). -/
def runChunk (results : List Json) (ds : List String) : ChunkOut :=
  match runDeltas results ds initState with
  | (snaps, _, true) => ⟨snaps, results, true⟩
  | (snaps, s, false) =>
    match finalizeDone results s.lastParsed with
    | some r' => ⟨snaps, r', false⟩
    | none => ⟨snaps, results, true⟩

/-- Python `str.split()` with no argument: split on runs of whitespace,
discarding empty pieces. -/
def splitWS (l : List Char) : List (List Char) :=
  match h : l.dropWhile Char.isWhitespace with
  | [] => []
  | c :: cs =>
    (c :: cs.takeWhile (fun x => !x.isWhitespace)) ::
      splitWS (cs.dropWhile (fun x => !x.isWhitespace))
termination_by l.length
decreasing_by
  have h1 : (l.dropWhile Char.isWhitespace).length ≤ l.length :=
    (List.dropWhile_sublist _).length_le
  rw [h] at h1
  have h2 : (cs.dropWhile (fun x => !x.isWhitespace)).length ≤ cs.length :=
    (List.dropWhile_sublist _).length_le
  simp only [List.length_cons] at h1
  omega

/-- `' '.join(words)`: intersperse a single space. -/
def joinWords : List (List Char) → List Char
  | [] => []
  | [w] => w
  | w :: w2 :: ws => w ++ ' ' :: joinWords (w2 :: ws)

/-- `[words[i:i + size] for i in range(0, len(words), size)]`.  Python
raises `ValueError` on `size = 0` (`range` step zero); that case returns
`[]` here and every claim assumes `size ≥ 1`. -/
def chunkList (size : Nat) (l : List α) : List (List α) :=
  match l, size with
  | [], _ => []
  | _ :: _, 0 => []
  | a :: l', size' + 1 =>
    ((a :: l').take (size' + 1)) :: chunkList (size' + 1) (l'.drop size')
termination_by l.length
decreasing_by
  simp only [List.length_cons, List.length_drop]
  omega

/-- Lines 62-65: `split_into_chunks` — whitespace-tokenize, group into
runs of at most `chunk_size` words, rejoin each group with single
spaces. -/
def split_into_chunks (input_text : String) (chunk_size : Nat) : List String :=
  (chunkList chunk_size (splitWS input_text.data)).map
    (fun g => String.mk (joinWords g))

/-- Trace of one model invocation: the user text submitted, the running
total `results` at the moment the invocation started, the snapshots it
emitted, and whether an exception escaped during it. -/
structure InvTrace where
  userText : String
  startResults : List Json
  snaps : List Json
  raised : Bool

/-- Lines 75-76: process the prompt chunks sequentially, threading the
running total; a raise kills the generator, so later chunks are never
submitted.  `dss` is the delta-stream oracle, one list per invocation. -/
def runChunksAcc (results : List Json) (cs : List String)
    (dss : List (List String)) : List InvTrace :=
  match cs with
  | [] => []
  | c :: cs' =>
    match runChunk results (dss.headD []) with
    | ⟨snaps, _, true⟩ => [⟨c, results, snaps, true⟩]
    | ⟨snaps, results', false⟩ =>
      ⟨c, results, snaps, false⟩ :: runChunksAcc results' cs' dss.tail

/-- Lines 67-114: `get_response_stream`.  The model and system prompt are
forwarded to the inference engine but do not influence the reconstruction
logic; the engine's replies enter through the oracle `dss`. -/
def get_response_stream (model_name system_prompt user_message : String)
    (chunking : Bool) (dss : List (List String)) : List InvTrace :=
  let _ := model_name
  let _ := system_prompt
  runChunksAcc []
    (if chunking then split_into_chunks user_message 100 else [user_message])
    dss

/-- All snapshots a client observes on one response stream, in order. -/
def allSnapshots (trace : List InvTrace) : List Json :=
  (trace.map InvTrace.snaps).flatten

/-- An HTTP reply: an immediate 400 with a JSON body, or a streaming 200
described by its invocation trace. -/
inductive HttpResponse where
  | badRequest (body : Json) : HttpResponse
  | streamResp (trace : List InvTrace) : HttpResponse

/-- Status code of a reply. -/
def statusCode : HttpResponse → Nat
  | .badRequest _ => 400
  | .streamResp _ => 200

/-- The user texts of the model invocations a reply performs (none for a
400). -/
def invocationsOf : HttpResponse → List String
  | .badRequest _ => []
  | .streamResp trace => trace.map InvTrace.userText

/-- Line 12. -/
def global_base_model : String := "llama3"

/-- The 400 body `{"error": "No message provided"}` (lines 124 and 142). -/
def errNoMessage : Json := .obj [("error", .str "No message provided")]

/-- Lines 117-133: `/detect`.  The request's `message` field is modelled
as `Option String` (`data.get('message', '')`); `if not input_text`
rejects exactly the missing or empty message.  Chunking is enabled. -/
def detect (message : Option String) (dss : List (List String)) :
    HttpResponse :=
  let input_text := message.getD ""
  if input_text = "" then .badRequest errNoMessage
  else
    .streamResp
      (get_response_stream global_base_model "detect-system-prompt"
        input_text true dss)

/-- Lines 135-151: `/abstract`, identical except chunking is disabled. -/
def abstract (message : Option String) (dss : List (List String)) :
    HttpResponse :=
  let input_text := message.getD ""
  if input_text = "" then .badRequest errNoMessage
  else
    .streamResp
      (get_response_stream global_base_model "abstract-system-prompt"
        input_text false dss)

theorem lookup_map_replace (k : String) (v : Json) :
    ∀ kvs : List (String × Json), (∃ kv ∈ kvs, kv.1 = k) →
    lookupKey (kvs.map (fun kv => if kv.1 = k then (k, v) else kv)) k = some v := by
  intro kvs
  induction kvs with
  | nil => intro h; simp at h
  | cons hd tl ih =>
    obtain ⟨k0, v0⟩ := hd
    intro hex
    by_cases hhd : k0 = k
    · rw [List.map_cons]
      simp only [if_pos hhd]
      simp [lookupKey]
    · rw [List.map_cons]
      simp only [if_neg hhd]
      simp only [lookupKey, if_neg hhd]
      apply ih
      rcases hex with ⟨kv, hmem, hk⟩
      rcases List.mem_cons.1 hmem with h | h
      · exact absurd (by rw [h] at hk; exact hk) hhd
      · exact ⟨kv, h, hk⟩

theorem lookup_append_absent (k : String) (v : Json) :
    ∀ kvs : List (String × Json), (¬ ∃ kv ∈ kvs, kv.1 = k) →
    lookupKey (kvs ++ [(k, v)]) k = some v := by
  intro kvs
  induction kvs with
  | nil => intro _; simp [lookupKey]
  | cons hd tl ih =>
    obtain ⟨k0, v0⟩ := hd
    intro hex
    have hhd : ¬ k0 = k := fun h => hex ⟨(k0, v0), List.mem_cons_self _ _, h⟩
    simp only [List.cons_append, lookupKey, if_neg hhd]
    exact ih (fun ⟨kv, hmem, hk⟩ => hex ⟨kv, List.mem_cons_of_mem _ hmem, hk⟩)

theorem lookup_objInsert (kvs : List (String × Json)) (k : String) (v : Json) :
    lookupKey (objInsert kvs k v) k = some v := by
  unfold objInsert
  split
  · exact lookup_map_replace k v kvs (by assumption)
  · exact lookup_append_absent k v kvs (by assumption)

theorem resultsField_inv {j : Json} {l : List Json}
    (h : resultsField j = some l) :
    ∃ kvs, j = .obj kvs ∧ lookupKey kvs "results" = some (.arr l) := by
  cases j with
  | obj kvs =>
    refine ⟨kvs, rfl, ?_⟩
    simp only [resultsField] at h
    split at h
    · rename_i es heq
      rw [← Option.some.inj h]
      exact heq
    · exact Option.noConfusion h
  | null => exact Option.noConfusion h
  | bool b => exact Option.noConfusion h
  | num n => exact Option.noConfusion h
  | str s => exact Option.noConfusion h
  | arr es => exact Option.noConfusion h

theorem resultsField_setResults {j : Json} {l0 : List Json}
    (h : resultsField j = some l0) (l : List Json) :
    resultsField (setResults j l) = some l := by
  obtain ⟨kvs, rfl, _⟩ := resultsField_inv h
  simp only [setResults, resultsField, lookup_objInsert]

theorem resultsExtendField_of_resultsField {j : Json} {l : List Json}
    (h : resultsField j = some l) : resultsExtendField j = some l := by
  obtain ⟨kvs, rfl, hlk⟩ := resultsField_inv h
  simp [resultsExtendField, hlk, extendElems]

theorem stepDelta_noClose (r : List Json) (s : ChunkState) (d : String)
    (hc : (containsChar d ']' || containsChar d rbraceC) = false) :
    stepDelta r s d = .noEmit ⟨s.buffer ++ d, s.lastParsed⟩ := by
  simp only [stepDelta, hc, Bool.false_eq_true, if_false]

theorem stepDelta_parse_fail (r : List Json) (s : ChunkState) (d : String)
    (hc : (containsChar d ']' || containsChar d rbraceC) = true)
    (hp : Json.parse (repairJsonStr s.buffer d) = none) :
    stepDelta r s d = .noEmit ⟨s.buffer, repairJsonStr s.buffer d⟩ := by
  simp only [stepDelta, hc, if_true, hp]

theorem stepDelta_ill_shaped (r : List Json) (s : ChunkState) (d : String)
    (j : Json) (hc : (containsChar d ']' || containsChar d rbraceC) = true)
    (hp : Json.parse (repairJsonStr s.buffer d) = some j)
    (hr : resultsField j = none) :
    stepDelta r s d = .raise := by
  simp only [stepDelta, hc, if_true, hp, hr]

theorem stepDelta_emit_eq (r : List Json) (s : ChunkState) (d : String)
    (j : Json) (l : List Json)
    (hc : (containsChar d ']' || containsChar d rbraceC) = true)
    (hp : Json.parse (repairJsonStr s.buffer d) = some j)
    (hr : resultsField j = some l) :
    stepDelta r s d =
      .emit (setResults j (r ++ l)) ⟨s.buffer ++ d, repairJsonStr s.buffer d⟩ := by
  simp only [stepDelta, hc, if_true, hp, hr]

theorem stepDelta_emit_inv {r : List Json} {s : ChunkState} {d : String}
    {snap : Json} {s' : ChunkState} (h : stepDelta r s d = .emit snap s') :
    ∃ j l, Json.parse (repairJsonStr s.buffer d) = some j ∧
      resultsField j = some l ∧ snap = setResults j (r ++ l) ∧
      s' = ⟨s.buffer ++ d, repairJsonStr s.buffer d⟩ := by
  unfold stepDelta at h
  split at h
  · split at h
    · exact StepResult.noConfusion h
    · rename_i j hp
      split at h
      · exact StepResult.noConfusion h
      · rename_i l hr
        refine ⟨j, l, hp, hr, ?_, ?_⟩
        · exact (StepResult.emit.inj h).1.symm
        · exact (StepResult.emit.inj h).2.symm
  · exact StepResult.noConfusion h

theorem runDeltas_snaps_results (r : List Json) (ds : List String) :
    ∀ s, ∀ sn ∈ (runDeltas r ds s).1, ∃ t, resultsField sn = some (r ++ t) := by
  induction ds with
  | nil => intro s sn h; simp [runDeltas] at h
  | cons d ds' ih =>
    intro s sn h
    rw [runDeltas] at h
    cases hstep : stepDelta r s d with
    | noEmit s1 =>
      rw [hstep] at h
      exact ih s1 sn h
    | emit snap s1 =>
      rw [hstep] at h
      rcases List.mem_cons.1 h with h | h
      · obtain ⟨j, l, _, hr, hsnap, _⟩ := stepDelta_emit_inv hstep
        exact ⟨l, by rw [h, hsnap]; exact resultsField_setResults hr (r ++ l)⟩
      · exact ih s1 sn h
    | raise =>
      rw [hstep] at h
      simp at h


theorem runDeltas_cons_noEmit {r : List Json} {s s' : ChunkState} {d : String}
    (ds : List String) (h : stepDelta r s d = .noEmit s') :
    runDeltas r (d :: ds) s = runDeltas r ds s' := by
  rw [runDeltas, h]

theorem runDeltas_cons_emit {r : List Json} {s s' : ChunkState} {d : String}
    {snap : Json} (ds : List String) (h : stepDelta r s d = .emit snap s') :
    runDeltas r (d :: ds) s =
      (snap :: (runDeltas r ds s').1,
        (runDeltas r ds s').2.1, (runDeltas r ds s').2.2) := by
  rw [runDeltas, h]

theorem runDeltas_cons_raise {r : List Json} {s : ChunkState} {d : String}
    (ds : List String) (h : stepDelta r s d = .raise) :
    runDeltas r (d :: ds) s = ([], s, true) := by
  rw [runDeltas, h]

theorem runChunk_eq_raised {r : List Json} {ds : List String}
    {snaps : List Json} {s : ChunkState}
    (h : runDeltas r ds initState = (snaps, s, true)) :
    runChunk r ds = ⟨snaps, r, true⟩ := by
  rw [runChunk, h]

theorem runChunk_eq_fin {r : List Json} {ds : List String}
    {snaps : List Json} {s : ChunkState}
    (h : runDeltas r ds initState = (snaps, s, false)) :
    runChunk r ds =
      match finalizeDone r s.lastParsed with
      | some r' => ⟨snaps, r', false⟩
      | none => ⟨snaps, r, true⟩ := by
  rw [runChunk, h]

theorem runChunksAcc_cons_raised {r r' : List Json} {snaps : List Json}
    {c : String} (cs' : List String) (dss : List (List String))
    (h : runChunk r (dss.headD []) = ⟨snaps, r', true⟩) :
    runChunksAcc r (c :: cs') dss = [⟨c, r, snaps, true⟩] := by
  rw [runChunksAcc, h]

theorem runChunksAcc_cons_ok {r r' : List Json} {snaps : List Json}
    {c : String} (cs' : List String) (dss : List (List String))
    (h : runChunk r (dss.headD []) = ⟨snaps, r', false⟩) :
    runChunksAcc r (c :: cs') dss =
      ⟨c, r, snaps, false⟩ :: runChunksAcc r' cs' dss.tail := by
  rw [runChunksAcc, h]

theorem finalizeDone_ext {r r' : List Json} {lp : String}
    (h : finalizeDone r lp = some r') : ∃ c, r' = r ++ c := by
  unfold finalizeDone at h
  split at h
  · exact ⟨[], by simpa using (Option.some.inj h).symm⟩
  · rename_i j _
    cases hef : resultsExtendField j with
    | none => rw [hef] at h; exact Option.noConfusion h
    | some l =>
      rw [hef] at h
      simp only [Option.map_some'] at h
      exact ⟨l, (Option.some.inj h).symm⟩

theorem runChunk_snaps (r : List Json) (ds : List String) :
    (runChunk r ds).snaps = (runDeltas r ds initState).1 := by
  rcases hrd : runDeltas r ds initState with ⟨snaps, s, b⟩
  cases b
  · rw [runChunk_eq_fin hrd]
    split <;> rfl
  · rw [runChunk_eq_raised hrd]

theorem runChunk_results_ext (r : List Json) (ds : List String) :
    ∃ c, (runChunk r ds).results = r ++ c := by
  rcases hrd : runDeltas r ds initState with ⟨snaps, s, b⟩
  cases b
  · rw [runChunk_eq_fin hrd]
    rcases hfin : finalizeDone r s.lastParsed with _ | r'
    · exact ⟨[], by simp⟩
    · obtain ⟨c, hc⟩ := finalizeDone_ext hfin
      exact ⟨c, hc⟩
  · rw [runChunk_eq_raised hrd]
    exact ⟨[], by simp⟩

theorem runChunksAcc_start (cs : List String) :
    ∀ r dss, ∀ tr ∈ runChunksAcc r cs dss, ∃ t0, tr.startResults = r ++ t0 := by
  induction cs with
  | nil => intro r dss tr h; simp [runChunksAcc] at h
  | cons c cs' ih =>
    intro r dss tr h
    rcases hout : runChunk r (dss.headD []) with ⟨snaps, r', b⟩
    cases b
    · rw [runChunksAcc_cons_ok cs' dss hout] at h
      rcases List.mem_cons.1 h with rfl | h
      · exact ⟨[], by simp⟩
      · obtain ⟨t0, ht0⟩ := ih r' dss.tail tr h
        have hc0 : ∃ c0, r' = r ++ c0 := by
          have := runChunk_results_ext r (dss.headD [])
          rw [hout] at this
          exact this
        obtain ⟨c0, rfl⟩ := hc0
        exact ⟨c0 ++ t0, by rw [ht0, List.append_assoc]⟩
    · rw [runChunksAcc_cons_raised cs' dss hout] at h
      rcases List.mem_singleton.1 h with rfl
      exact ⟨[], by simp⟩

theorem runChunksAcc_snaps (cs : List String) :
    ∀ r dss, ∀ tr ∈ runChunksAcc r cs dss, ∀ sn ∈ tr.snaps,
      ∃ t, resultsField sn = some (tr.startResults ++ t) := by
  induction cs with
  | nil => intro r dss tr h; simp [runChunksAcc] at h
  | cons c cs' ih =>
    intro r dss tr h
    rcases hout : runChunk r (dss.headD []) with ⟨snaps, r', b⟩
    have hsnaps : snaps = (runDeltas r (dss.headD []) initState).1 := by
      have := runChunk_snaps r (dss.headD [])
      rw [hout] at this
      exact this
    cases b
    · rw [runChunksAcc_cons_ok cs' dss hout] at h
      rcases List.mem_cons.1 h with rfl | h
      · intro sn hsn
        simp only at hsn ⊢
        rw [hsnaps] at hsn
        exact runDeltas_snaps_results r (dss.headD []) initState sn hsn
      · exact ih r' dss.tail tr h
    · rw [runChunksAcc_cons_raised cs' dss hout] at h
      rcases List.mem_singleton.1 h with rfl
      intro sn hsn
      simp only at hsn ⊢
      rw [hsnaps] at hsn
      exact runDeltas_snaps_results r (dss.headD []) initState sn hsn

theorem runChunksAcc_chain (cs : List String) :
    ∀ r dss, List.Chain' (fun a b => ∃ t, b.startResults = a.startResults ++ t)
      (runChunksAcc r cs dss) := by
  induction cs with
  | nil => intro r dss; simp [runChunksAcc]
  | cons c cs' ih =>
    intro r dss
    rcases hout : runChunk r (dss.headD []) with ⟨snaps, r', b⟩
    cases b
    · rw [runChunksAcc_cons_ok cs' dss hout]
      refine List.chain'_cons'.2 ⟨?_, ih r' dss.tail⟩
      intro tr2 htr2
      have hmem : tr2 ∈ runChunksAcc r' cs' dss.tail := List.mem_of_mem_head? htr2
      obtain ⟨t0, ht0⟩ := runChunksAcc_start cs' r' dss.tail tr2 hmem
      have hc0 : ∃ c0, r' = r ++ c0 := by
        have := runChunk_results_ext r (dss.headD [])
        rw [hout] at this
        exact this
      obtain ⟨c0, rfl⟩ := hc0
      exact ⟨c0 ++ t0, by rw [ht0, List.append_assoc]⟩
    · rw [runChunksAcc_cons_raised cs' dss hout]
      exact List.chain'_singleton _

theorem runDeltas_append (r : List Json) (ds2 : List String) :
    ∀ ds1 s sn1 s1, runDeltas r ds1 s = (sn1, s1, false) →
    runDeltas r (ds1 ++ ds2) s =
      (sn1 ++ (runDeltas r ds2 s1).1,
        (runDeltas r ds2 s1).2.1, (runDeltas r ds2 s1).2.2) := by
  intro ds1
  induction ds1 with
  | nil =>
    intro s sn1 s1 h
    rw [runDeltas] at h
    injection h with h1 h23
    injection h23 with h2 h3
    subst h1
    subst h2
    simp
  | cons d ds1' ih =>
    intro s sn1 s1 h
    cases hstep : stepDelta r s d with
    | noEmit s' =>
      rw [runDeltas_cons_noEmit ds1' hstep] at h
      rw [List.cons_append, runDeltas_cons_noEmit (ds1' ++ ds2) hstep]
      exact ih s' sn1 s1 h
    | emit snap s' =>
      rw [runDeltas_cons_emit ds1' hstep] at h
      injection h with h1 h23
      injection h23 with h2 h3
      rw [List.cons_append, runDeltas_cons_emit (ds1' ++ ds2) hstep]
      rw [ih s' (runDeltas r ds1' s').1 (runDeltas r ds1' s').2.1 (by rw [← h3])]
      rw [← h1, h2]
      simp
    | raise =>
      rw [runDeltas_cons_raise ds1' hstep] at h
      injection h with h1 h23
      injection h23 with h2 h3
      exact Bool.noConfusion h3

/-- Claim C3 is false on the code: a delta whose repaired prefix fails to
parse is NOT appended to the accumulation buffer.  On the delta consisting
of the single character `}` from the initial state, the repaired prefix
`}]}` fails to parse, no snapshot is emitted, and the buffer afterwards is
`""`, not the `""++"}"` the claim requires. -/
theorem c3_counterexample :
    stepDelta [] initState "\x7d" = .noEmit ⟨"", "\x7d]\x7d"⟩ ∧
    initState.buffer ++ "\x7d" ≠ "" := ⟨rfl, by decide⟩

/-- Claim C3 (amended): for every delta containing `]` or `}` whose
repaired prefix fails to parse as JSON, the delta is DISCARDED — the
buffer after processing equals the buffer before (the `buffer += content`
statement sits inside the `try` and is skipped) — no snapshot is emitted,
and the stored last-parsed string is updated to the failed repaired
prefix. -/
theorem c3_parse_fail_drops_delta (r : List Json) (s : ChunkState)
    (d : String) (hc : (containsChar d ']' || containsChar d rbraceC) = true)
    (hp : Json.parse (repairJsonStr s.buffer d) = none) :
    stepDelta r s d = .noEmit ⟨s.buffer, repairJsonStr s.buffer d⟩ :=
  stepDelta_parse_fail r s d hc hp

/-- Witness for C3 (amended) at a concrete input: buffer `"x"`, delta
`"}"`; the repaired prefix `x}]}` fails to parse and the buffer stays
`"x"`. -/
theorem c3_witness :
    stepDelta [Json.num 5] ⟨"x", "y"⟩ "\x7d" =
      .noEmit ⟨"x", "x\x7d]\x7d"⟩ :=
  c3_parse_fail_drops_delta [Json.num 5] ⟨"x", "y"⟩ "\x7d" rfl rfl

/-- Claim C5: every snapshot emitted on a successful repaired-prefix parse
is the parsed object with its result list replaced by the already
finalized running total followed by the parsed chunk-partial list, in that
order. -/
theorem c5_snapshot_shape (r : List Json) (s : ChunkState)
    (d : String) (j : Json) (l : List Json)
    (hc : (containsChar d ']' || containsChar d rbraceC) = true)
    (hp : Json.parse (repairJsonStr s.buffer d) = some j)
    (hr : resultsField j = some l) :
    stepDelta r s d =
      .emit (setResults j (r ++ l)) ⟨s.buffer ++ d, repairJsonStr s.buffer d⟩ ∧
    resultsField (setResults j (r ++ l)) = some (r ++ l) :=
  ⟨stepDelta_emit_eq r s d j l hc hp hr, resultsField_setResults hr (r ++ l)⟩

/-- Witness for C5: running total `[9]`, delta `{"results": [1]`; the
emitted snapshot's result list is `[9, 1]` — total first, partial
second. -/
theorem c5_witness :
    stepDelta [Json.num 9] initState "\x7b\"results\": [1]" =
      .emit (setResults (Json.obj [("results", Json.arr [Json.num 1])])
          [Json.num 9, Json.num 1])
        ⟨"\x7b\"results\": [1]", "\x7b\"results\": [1]\x7d"⟩ ∧
    resultsField (setResults (Json.obj [("results", Json.arr [Json.num 1])])
        [Json.num 9, Json.num 1]) = some [Json.num 9, Json.num 1] :=
  c5_snapshot_shape [Json.num 9] initState
    "\x7b\"results\": [1]" (Json.obj [("results", Json.arr [Json.num 1])])
    [Json.num 1] rfl rfl rfl

/-- Claim C6: when the done signal arrives after a non-raising delta
sequence, the stored last-parsed string is parsed once more; a failed
parse leaves the running total unchanged (empty contribution, logged not
raised, the chunk completes normally), and a parse producing a result
list appends it to the running total handed onward. -/
theorem c6_done_final_parse (r : List Json) (ds : List String)
    (sn : List Json) (s : ChunkState)
    (hrun : runDeltas r ds initState = (sn, s, false)) :
    (Json.parse s.lastParsed = none → runChunk r ds = ⟨sn, r, false⟩) ∧
    (∀ j l, Json.parse s.lastParsed = some j → resultsField j = some l →
      runChunk r ds = ⟨sn, r ++ l, false⟩) := by
  constructor
  · intro hp
    rw [runChunk_eq_fin hrun]
    unfold finalizeDone
    rw [hp]
  · intro j l hp hr
    rw [runChunk_eq_fin hrun]
    unfold finalizeDone
    rw [hp]
    simp only [resultsExtendField_of_resultsField hr, Option.map_some']

/-- Witness for C6: the single delta `{"results": [1]` leaves last-parsed
`{"results": [1]}`; the done-time parse succeeds and `[1]` is appended to
the running total `[9]`. -/
theorem c6_witness :
    runChunk [Json.num 9] ["\x7b\"results\": [1]"] =
      ⟨[setResults (Json.obj [("results", Json.arr [Json.num 1])])
          [Json.num 9, Json.num 1]],
        [Json.num 9, Json.num 1], false⟩ :=
  (c6_done_final_parse [Json.num 9] ["\x7b\"results\": [1]"]
      [setResults (Json.obj [("results", Json.arr [Json.num 1])])
        [Json.num 9, Json.num 1]]
      ⟨"\x7b\"results\": [1]", "\x7b\"results\": [1]\x7d"⟩ rfl).2
    (Json.obj [("results", Json.arr [Json.num 1])]) [Json.num 1] rfl rfl

/-- Claim C8 is false on the code: the generator CAN raise.  The single
delta `{"a": []}` repairs to itself, parses as JSON, but has no
`"results"` key; the `KeyError` is not caught (only `JSONDecodeError`
is), so the exception escapes the generator and the client's stream
aborts with no snapshot. -/
theorem c8_counterexample :
    (runChunk [] ["\x7b\"a\": []\x7d"]).raised = true ∧
    abstract (some "m") [["\x7b\"a\": []\x7d"]] =
      .streamResp [⟨"m", [], [], true⟩] := ⟨rfl, rfl⟩

/-- Claim C8 (amended): JSON decode failures never abort the stream — a
bracketless delta or a failed repaired-prefix parse only skips the
snapshot — but a repaired prefix that parses successfully to JSON without
a list under `"results"` raises an uncaught error that aborts the
generator. -/
theorem c8_raise_characterization (r : List Json) (s : ChunkState)
    (d : String) :
    ((containsChar d ']' || containsChar d rbraceC) = false →
      stepDelta r s d = .noEmit ⟨s.buffer ++ d, s.lastParsed⟩) ∧
    ((containsChar d ']' || containsChar d rbraceC) = true →
      Json.parse (repairJsonStr s.buffer d) = none →
      stepDelta r s d = .noEmit ⟨s.buffer, repairJsonStr s.buffer d⟩) ∧
    (∀ j, (containsChar d ']' || containsChar d rbraceC) = true →
      Json.parse (repairJsonStr s.buffer d) = some j →
      resultsField j = none → stepDelta r s d = .raise) :=
  ⟨fun hc => stepDelta_noClose r s d hc,
    fun hc hp => stepDelta_parse_fail r s d hc hp,
    fun j hc hp hr => stepDelta_ill_shaped r s d j hc hp hr⟩

/-- Witness for C8 (amended): the well-formed but ill-shaped delta
`{"a": []}` raises. -/
theorem c8_witness :
    stepDelta [] initState "\x7b\"a\": []\x7d" = .raise :=
  (c8_raise_characterization [] initState "\x7b\"a\": []\x7d").2.2
    (Json.obj [("a", Json.arr [])]) rfl rfl rfl

/-- Claim C7: a missing or empty `message` on either endpoint yields an
immediate 400 with body `{"error": "No message provided"}` and no model
invocation is made. -/
theorem c7_empty_message_rejected (msg : Option String)
    (dss : List (List String)) (h : msg = none ∨ msg = some "") :
    detect msg dss = .badRequest errNoMessage ∧
    statusCode (detect msg dss) = 400 ∧
    invocationsOf (detect msg dss) = [] ∧
    abstract msg dss = .badRequest errNoMessage ∧
    statusCode (abstract msg dss) = 400 ∧
    invocationsOf (abstract msg dss) = [] := by
  rcases h with rfl | rfl <;>
    simp [detect, abstract, statusCode, invocationsOf]

/-- Witness for C7 at the concrete missing-message request. -/
theorem c7_witness :
    detect none [] = .badRequest errNoMessage ∧
    statusCode (detect none []) = 400 ∧
    invocationsOf (detect none []) = [] ∧
    abstract none [] = .badRequest errNoMessage ∧
    statusCode (abstract none []) = 400 ∧
    invocationsOf (abstract none []) = [] :=
  c7_empty_message_rejected none [] (Or.inl rfl)

/-- Claim C9: a non-empty `/abstract` request performs exactly one model
invocation, whose user text is the full message, and that invocation's
running total is the empty list. -/
theorem c9_abstract_single_invocation (msg : String)
    (dss : List (List String)) (h : msg ≠ "") :
    abstract (some msg) dss =
      .streamResp [⟨msg, [], (runChunk [] (dss.headD [])).snaps,
        (runChunk [] (dss.headD [])).raised⟩] ∧
    invocationsOf (abstract (some msg) dss) = [msg] := by
  have habs : abstract (some msg) dss = .streamResp (runChunksAcc [] [msg] dss) := by
    simp [abstract, h, get_response_stream]
  have hacc : runChunksAcc [] [msg] dss =
      [⟨msg, [], (runChunk [] (dss.headD [])).snaps,
        (runChunk [] (dss.headD [])).raised⟩] := by
    rcases hout : runChunk [] (dss.headD []) with ⟨snaps, r', b⟩
    cases b
    · rw [runChunksAcc_cons_ok [] dss hout, runChunksAcc]
    · rw [runChunksAcc_cons_raised [] dss hout]
  refine ⟨by rw [habs, hacc], ?_⟩
  rw [habs, hacc]
  rfl

/-- Witness for C9 at a concrete request. -/
theorem c9_witness :
    abstract (some "hello") [] =
      .streamResp [⟨"hello", [], (runChunk [] (([] : List (List String)).headD [])).snaps,
        (runChunk [] (([] : List (List String)).headD [])).raised⟩] ∧
    invocationsOf (abstract (some "hello") []) = ["hello"] :=
  c9_abstract_single_invocation "hello" [] (by decide)

/-- Claim C1 is false on the code: snapshot lists need not extend earlier
ones.  A request whose single invocation streams
`{"results": [1]` then `, "results": [2]` emits snapshots with result
lists `[1]` then `[2]` — the duplicate `"results"` key overwrites the
earlier list — and `[1]` is not a prefix of `[2]`. -/
theorem c1_counterexample :
    (allSnapshots (get_response_stream "llama3" "sys" "m" false
        [["\x7b\"results\": [1]", ", \"results\": [2]"]])).map resultsField =
      [some [Json.num 1], some [Json.num 2]] ∧
    ¬ ∃ t, [Json.num 2] = [Json.num 1] ++ t := by
  constructor
  · rfl
  · rintro ⟨t, ht⟩
    rw [List.singleton_append] at ht
    injection ht with h1 h2
    injection h1 with h3
    exact absurd h3 (by decide)

/-- Claim C1 (amended): what the code does guarantee is monotonicity of
the finalized running totals, not of the emitted lists — every emitted
snapshot's result list extends the running total its invocation started
with, and consecutive invocations' starting totals only grow by
appending. -/
theorem c1_running_total_monotone (model sys msg : String) (chunking : Bool)
    (dss : List (List String)) :
    (∀ tr ∈ get_response_stream model sys msg chunking dss,
      ∀ sn ∈ tr.snaps, ∃ t, resultsField sn = some (tr.startResults ++ t)) ∧
    List.Chain' (fun a b => ∃ t, b.startResults = a.startResults ++ t)
      (get_response_stream model sys msg chunking dss) := by
  constructor
  · intro tr htr
    exact runChunksAcc_snaps
      (if chunking then split_into_chunks msg 100 else [msg]) [] dss tr htr
  · exact runChunksAcc_chain
      (if chunking then split_into_chunks msg 100 else [msg]) [] dss

/-- Witness for C1 (amended) on a concrete stream. -/
theorem c1_witness :
    List.Chain' (fun a b => ∃ t, b.startResults = a.startResults ++ t)
      (get_response_stream "llama3" "s" "m" false
        [["\x7b\"results\": [1]"]]) :=
  (c1_running_total_monotone "llama3" "s" "m" false
    [["\x7b\"results\": [1]"]]).2

/-- Claim C2 is false on the code: splitting the valid object
`{"results": [1,{"a": 2},[3]]}` as
`{"results": [1,` · `{"a": 2},` · `[3]` · `]}` makes the third delta's
repair fail (so the delta is dropped from the buffer), after which no
later prefix ever parses again; the last emitted snapshot's result list
is `[1, {"a": 2}]` while the fully-parsed object's list is
`[1, {"a": 2}, [3]]`. -/
theorem c2_counterexample :
    ("\x7b\"results\": [1," ++ "\x7b\"a\": 2\x7d," ++ "[3]" ++ "]\x7d" : String) =
      "\x7b\"results\": [1,\x7b\"a\": 2\x7d,[3]]\x7d" ∧
    (Json.parse "\x7b\"results\": [1,\x7b\"a\": 2\x7d,[3]]\x7d").map resultsField =
      some (some [Json.num 1, Json.obj [("a", Json.num 2)],
        Json.arr [Json.num 3]]) ∧
    (runChunk []
        ["\x7b\"results\": [1,", "\x7b\"a\": 2\x7d,", "[3]", "]\x7d"]).raised
      = false ∧
    (runChunk []
        ["\x7b\"results\": [1,", "\x7b\"a\": 2\x7d,", "[3]", "]\x7d"]).snaps.map
        resultsField = [some [Json.num 1, Json.obj [("a", Json.num 2)]]] ∧
    [Json.num 1, Json.obj [("a", Json.num 2)]] ≠
      [Json.num 1, Json.obj [("a", Json.num 2)], Json.arr [Json.num 3]] := by
  refine ⟨rfl, rfl, rfl, rfl, ?_⟩
  intro h
  have hlen := congrArg List.length h
  simp at hlen

/-- Claim C2 (amended): completeness holds only under the conditions the
counterexample shows are necessary — no earlier repair attempt dropped a
delta (the buffer equals the concatenation of the deltas processed so
far), and the final delta contains `]` with its repaired prefix
reproducing the full concatenation, which parses to an object with a
result list.  Then the invocation's last emitted snapshot carries exactly
the fully-parsed object's result list, which also becomes the finalized
contribution. -/
theorem c2_conditional_completeness (ds : List String) (d : String)
    (sn : List Json) (s : ChunkState) (j : Json) (l : List Json)
    (hrun : runDeltas [] ds initState = (sn, s, false))
    (hbuf : s.buffer = String.join ds)
    (hc : (containsChar d ']' || containsChar d rbraceC) = true)
    (hrep : repairJsonStr (String.join ds) d = String.join ds ++ d)
    (hp : Json.parse (String.join ds ++ d) = some j)
    (hr : resultsField j = some l) :
    runChunk [] (ds ++ [d]) = ⟨sn ++ [setResults j l], l, false⟩ ∧
    (sn ++ [setResults j l]).getLast? = some (setResults j l) ∧
    resultsField (setResults j l) = some l := by
  have hp' : Json.parse (repairJsonStr s.buffer d) = some j := by
    rw [hbuf, hrep]; exact hp
  have hstep : stepDelta [] s d =
      .emit (setResults j ([] ++ l)) ⟨s.buffer ++ d, repairJsonStr s.buffer d⟩ :=
    stepDelta_emit_eq [] s d j l hc hp' hr
  have hd1 : runDeltas [] [d] s =
      ([setResults j l], ⟨s.buffer ++ d, repairJsonStr s.buffer d⟩, false) := by
    rw [runDeltas_cons_emit [] hstep]
    simp [runDeltas]
  have happ := runDeltas_append [] [d] ds initState sn s hrun
  rw [hd1] at happ
  dsimp only at happ
  have hfin : finalizeDone []
      (ChunkState.lastParsed ⟨s.buffer ++ d, repairJsonStr s.buffer d⟩) =
      some l := by
    dsimp only
    rw [hbuf, hrep]
    unfold finalizeDone
    rw [hp]
    simp only [resultsExtendField_of_resultsField hr, Option.map_some']
    rfl
  refine ⟨?_, List.getLast?_concat _, resultsField_setResults hr l⟩
  rw [runChunk_eq_fin happ, hfin]

/-- Witness for C2 (amended): `{"results": [1` then `]}`; nothing is
dropped, the final repair reproduces `{"results": [1]}`, and the last
snapshot's list `[1]` equals the full parse's list. -/
theorem c2_witness :
    runChunk [] (["\x7b\"results\": [1"] ++ ["]\x7d"]) =
      ⟨[setResults (Json.obj [("results", Json.arr [Json.num 1])])
          [Json.num 1]], [Json.num 1], false⟩ ∧
    ([setResults (Json.obj [("results", Json.arr [Json.num 1])])
        [Json.num 1]]).getLast? =
      some (setResults (Json.obj [("results", Json.arr [Json.num 1])])
        [Json.num 1]) ∧
    resultsField (setResults (Json.obj [("results", Json.arr [Json.num 1])])
        [Json.num 1]) = some [Json.num 1] :=
  c2_conditional_completeness ["\x7b\"results\": [1"] "]\x7d" []
    ⟨"\x7b\"results\": [1", ""⟩
    (Json.obj [("results", Json.arr [Json.num 1])]) [Json.num 1]
    rfl rfl rfl rfl rfl rfl

theorem takeWhile_append_all {p : Char → Bool} :
    ∀ {w r : List Char}, (∀ c ∈ w, p c = true) →
    (w ++ r).takeWhile p = w ++ r.takeWhile p := by
  intro w
  induction w with
  | nil => intro r _; simp
  | cons a w' ih =>
    intro r hall
    rw [List.cons_append, List.takeWhile_cons_of_pos (hall a (List.mem_cons_self a w')),
      List.cons_append, ih (fun c hc => hall c (List.mem_cons_of_mem a hc))]

theorem dropWhile_append_all {p : Char → Bool} :
    ∀ {w r : List Char}, (∀ c ∈ w, p c = true) →
    (w ++ r).dropWhile p = r.dropWhile p := by
  intro w
  induction w with
  | nil => intro r _; simp
  | cons a w' ih =>
    intro r hall
    rw [List.cons_append, List.dropWhile_cons_of_pos (hall a (List.mem_cons_self a w'))]
    exact ih (fun c hc => hall c (List.mem_cons_of_mem a hc))

theorem takeWhile_all {p : Char → Bool} {w : List Char}
    (h : ∀ c ∈ w, p c = true) : w.takeWhile p = w := by
  have := takeWhile_append_all (r := []) h
  simpa using this

theorem dropWhile_all {p : Char → Bool} {w : List Char}
    (h : ∀ c ∈ w, p c = true) : w.dropWhile p = [] := by
  have := dropWhile_append_all (r := []) h
  simpa using this

theorem mem_takeWhile_pred {p : Char → Bool} :
    ∀ {l : List Char} {c : Char}, c ∈ l.takeWhile p → p c = true := by
  intro l
  induction l with
  | nil => intro c hc; simp at hc
  | cons a l' ih =>
    intro c hc
    by_cases hpa : p a = true
    · rw [List.takeWhile_cons_of_pos hpa] at hc
      rcases List.mem_cons.1 hc with rfl | hc
      · exact hpa
      · exact ih hc
    · rw [List.takeWhile_cons_of_neg (by simpa using hpa)] at hc
      simp at hc

theorem dropWhile_head_false {p : Char → Bool} :
    ∀ {l : List Char} {c : Char} {cs : List Char},
    l.dropWhile p = c :: cs → p c = false := by
  intro l
  induction l with
  | nil => intro c cs h; exact List.noConfusion h
  | cons a l' ih =>
    intro c cs h
    by_cases hpa : p a = true
    · rw [List.dropWhile_cons_of_pos hpa] at h
      exact ih h
    · rw [List.dropWhile_cons_of_neg (by simpa using hpa)] at h
      injection h with h1 _
      subst h1
      simpa using hpa

theorem splitWS_of_dropWhile_nil {l : List Char}
    (h : l.dropWhile Char.isWhitespace = []) : splitWS l = [] := by
  rw [splitWS]
  split
  · rfl
  · rename_i c cs heq
    rw [h] at heq
    exact List.noConfusion heq

theorem splitWS_of_dropWhile_cons {l : List Char} {c : Char} {cs : List Char}
    (h : l.dropWhile Char.isWhitespace = c :: cs) :
    splitWS l = (c :: cs.takeWhile (fun x => !x.isWhitespace)) ::
      splitWS (cs.dropWhile (fun x => !x.isWhitespace)) := by
  conv_lhs => rw [splitWS]
  split
  · rename_i heq
    rw [h] at heq
    exact List.noConfusion heq
  · rename_i c' cs' heq
    rw [h] at heq
    injection heq with h1 h2
    subst h1
    subst h2
    rfl

theorem splitWS_congr {l1 l2 : List Char}
    (h : l1.dropWhile Char.isWhitespace = l2.dropWhile Char.isWhitespace) :
    splitWS l1 = splitWS l2 := by
  cases hv : l2.dropWhile Char.isWhitespace with
  | nil => rw [splitWS_of_dropWhile_nil (h.trans hv), splitWS_of_dropWhile_nil hv]
  | cons c cs =>
    rw [splitWS_of_dropWhile_cons (h.trans hv), splitWS_of_dropWhile_cons hv]

theorem splitWS_words_spec_aux :
    ∀ (n : Nat) (l : List Char), l.length ≤ n →
    ∀ w ∈ splitWS l, w ≠ [] ∧ ∀ c ∈ w, c.isWhitespace = false := by
  intro n
  induction n with
  | zero =>
    intro l hl w hw
    have hnil : l = [] := List.eq_nil_of_length_eq_zero (Nat.le_zero.1 hl)
    subst hnil
    rw [splitWS_of_dropWhile_nil (l := []) rfl] at hw
    simp at hw
  | succ n ih =>
    intro l hl w hw
    cases hv : l.dropWhile Char.isWhitespace with
    | nil => rw [splitWS_of_dropWhile_nil hv] at hw; simp at hw
    | cons c cs =>
      rw [splitWS_of_dropWhile_cons hv] at hw
      have hlen1 : (c :: cs).length ≤ l.length := by
        rw [← hv]
        exact (List.dropWhile_sublist _).length_le
      have hlen2 : (cs.dropWhile (fun x => !x.isWhitespace)).length ≤ cs.length :=
        (List.dropWhile_sublist _).length_le
      rcases List.mem_cons.1 hw with rfl | hw
      · refine ⟨List.cons_ne_nil _ _, ?_⟩
        intro x hx
        rcases List.mem_cons.1 hx with rfl | hx
        · exact dropWhile_head_false hv
        · simpa using mem_takeWhile_pred hx
      · refine ih (cs.dropWhile (fun x => !x.isWhitespace)) ?_ w hw
        simp only [List.length_cons] at hlen1
        omega

theorem splitWS_words_spec (l : List Char) :
    ∀ w ∈ splitWS l, w ≠ [] ∧ ∀ c ∈ w, c.isWhitespace = false :=
  splitWS_words_spec_aux l.length l (Nat.le_refl _)

theorem splitWS_join_roundtrip :
    ∀ ws : List (List Char),
    (∀ w ∈ ws, w ≠ [] ∧ ∀ c ∈ w, c.isWhitespace = false) →
    splitWS (joinWords ws) = ws := by
  intro ws
  induction ws with
  | nil =>
    intro _
    show splitWS [] = []
    exact splitWS_of_dropWhile_nil (l := []) rfl
  | cons w ws' ih =>
    intro hall
    obtain ⟨hne, hnws⟩ := hall w (List.mem_cons_self w ws')
    obtain ⟨c, w', rfl⟩ := List.exists_cons_of_ne_nil hne
    have hcnws : Char.isWhitespace c = false := hnws c (List.mem_cons_self c w')
    have hw'nws : ∀ x ∈ w', (!x.isWhitespace) = true := by
      intro x hx
      simp [hnws x (List.mem_cons_of_mem c hx)]
    cases ws' with
    | nil =>
      have hjoin : joinWords [c :: w'] = c :: w' := rfl
      rw [hjoin]
      have hdw : (c :: w').dropWhile Char.isWhitespace = c :: w' :=
        List.dropWhile_cons_of_neg (by simp [hcnws])
      rw [splitWS_of_dropWhile_cons hdw, takeWhile_all hw'nws,
        dropWhile_all hw'nws, splitWS_of_dropWhile_nil (l := []) rfl]
    | cons w2 ws'' =>
      have hjoin : joinWords ((c :: w') :: w2 :: ws'') =
          (c :: w') ++ ' ' :: joinWords (w2 :: ws'') := rfl
      rw [hjoin]
      have hdw : ((c :: w') ++ ' ' :: joinWords (w2 :: ws'')).dropWhile
          Char.isWhitespace =
          c :: (w' ++ ' ' :: joinWords (w2 :: ws'')) := by
        rw [List.cons_append]
        exact List.dropWhile_cons_of_neg (by simp [hcnws])
      rw [splitWS_of_dropWhile_cons hdw]
      have htw : (w' ++ ' ' :: joinWords (w2 :: ws'')).takeWhile
          (fun x => !x.isWhitespace) = w' := by
        rw [takeWhile_append_all hw'nws,
          List.takeWhile_cons_of_neg (by simp), List.append_nil]
      have hdw2 : (w' ++ ' ' :: joinWords (w2 :: ws'')).dropWhile
          (fun x => !x.isWhitespace) = ' ' :: joinWords (w2 :: ws'') := by
        rw [dropWhile_append_all hw'nws]
        exact List.dropWhile_cons_of_neg (by simp)
      rw [htw, hdw2]
      have hrec : splitWS (' ' :: joinWords (w2 :: ws'')) =
          splitWS (joinWords (w2 :: ws'')) :=
        splitWS_congr (List.dropWhile_cons_of_pos (by simp))
      rw [hrec, ih (fun g hg => hall g (List.mem_cons_of_mem _ hg))]

theorem chunkList_flatten {α : Type} (size : Nat) (l : List α) :
    0 < size → (chunkList size l).flatten = l := by
  induction size, l using chunkList.induct with
  | case1 size => intro _; rw [chunkList]; rfl
  | case2 a l' => intro h; exact absurd h (by omega)
  | case3 a l' size' ih =>
    intro _
    rw [chunkList, List.flatten_cons, ih (by omega)]
    exact List.take_append_drop _ _

theorem chunkList_mem_length {α : Type} (size : Nat) (l : List α) :
    ∀ g ∈ chunkList size l, g.length ≤ size := by
  induction size, l using chunkList.induct with
  | case1 size => rw [chunkList]; intro g hg; simp at hg
  | case2 a l' => rw [chunkList]; intro g hg; simp at hg
  | case3 a l' size' ih =>
    rw [chunkList]
    intro g hg
    rcases List.mem_cons.1 hg with rfl | hg
    · exact List.length_take_le _ _
    · exact ih g hg

theorem chunkList_mem_ne_nil {α : Type} (size : Nat) (l : List α) :
    ∀ g ∈ chunkList size l, g ≠ [] := by
  induction size, l using chunkList.induct with
  | case1 size => rw [chunkList]; intro g hg; simp at hg
  | case2 a l' => rw [chunkList]; intro g hg; simp at hg
  | case3 a l' size' ih =>
    rw [chunkList]
    intro g hg
    rcases List.mem_cons.1 hg with rfl | hg
    · simp [List.take_cons]
    · exact ih g hg

theorem chunkList_mem_subset {α : Type} (size : Nat) (l : List α) :
    ∀ g ∈ chunkList size l, ∀ x ∈ g, x ∈ l := by
  induction size, l using chunkList.induct with
  | case1 size => rw [chunkList]; intro g hg; simp at hg
  | case2 a l' => rw [chunkList]; intro g hg; simp at hg
  | case3 a l' size' ih =>
    rw [chunkList]
    intro g hg x hx
    rcases List.mem_cons.1 hg with rfl | hg
    · exact List.take_subset _ _ hx
    · exact List.mem_cons.2 (Or.inr (List.drop_subset size' l' (ih g hg x hx)))

theorem chunkList_length_eq {α : Type} (size : Nat) (l : List α) :
    0 < size → (chunkList size l).length = (l.length + size - 1) / size := by
  induction size, l using chunkList.induct with
  | case1 size =>
    intro h
    rw [chunkList]
    simp only [List.length_nil, Nat.zero_add]
    rw [Nat.div_eq_of_lt (by omega)]
  | case2 a l' => intro h; exact absurd h (by omega)
  | case3 a l' size' ih =>
    intro _
    rw [chunkList]
    simp only [List.length_cons]
    rw [ih (by omega), List.length_drop]
    simp only [Nat.succ_eq_add_one]
    rcases Nat.lt_or_ge l'.length size' with hlt | hge
    · have hz : (l'.length - size' + (size' + 1) - 1) / (size' + 1) = 0 :=
        Nat.div_eq_of_lt (by omega)
      have h1 : (l'.length + 1 + (size' + 1) - 1) / (size' + 1) = 1 :=
        Nat.div_eq_of_lt_le (by omega) (by omega)
      rw [hz, h1]
    · have h2 : l'.length - size' + (size' + 1) - 1 = l'.length := by omega
      have h3 : l'.length + 1 + (size' + 1) - 1 = l'.length + (size' + 1) := by omega
      rw [h2, h3, Nat.add_div_right _ (by omega)]

theorem joinWords_append :
    ∀ (gs1 gs2 : List (List Char)), gs1 ≠ [] → gs2 ≠ [] →
    joinWords (gs1 ++ gs2) = joinWords gs1 ++ ' ' :: joinWords gs2 := by
  intro gs1
  induction gs1 with
  | nil => intro gs2 h1 _; exact absurd rfl h1
  | cons w gs1' ih =>
    intro gs2 _ h2
    cases gs1' with
    | nil =>
      obtain ⟨g2, gs2', rfl⟩ := List.exists_cons_of_ne_nil h2
      rfl
    | cons w1 gs1'' =>
      show w ++ ' ' :: joinWords ((w1 :: gs1'') ++ gs2) =
        joinWords (w :: w1 :: gs1'') ++ ' ' :: joinWords gs2
      rw [ih gs2 (by simp) h2]
      show w ++ ' ' :: (joinWords (w1 :: gs1'') ++ ' ' :: joinWords gs2) =
        (w ++ ' ' :: joinWords (w1 :: gs1'')) ++ ' ' :: joinWords gs2
      simp [List.append_assoc]

theorem joinWords_map_flatten :
    ∀ gs : List (List (List Char)), (∀ g ∈ gs, g ≠ []) →
    joinWords (gs.map joinWords) = joinWords gs.flatten := by
  intro gs
  induction gs with
  | nil => intro _; rfl
  | cons g gs' ih =>
    intro hall
    cases gs' with
    | nil =>
      show joinWords [joinWords g] = joinWords (g ++ [])
      rw [List.append_nil]
      rfl
    | cons g2 gs'' =>
      have hg : g ≠ [] := hall g (List.mem_cons_self g _)
      have hg2 : g2 ≠ [] := hall g2 (by simp)
      have hflat : (g2 :: gs'').flatten ≠ [] := by
        rw [List.flatten_cons]
        intro hcon
        exact hg2 (List.append_eq_nil.1 hcon).1
      calc joinWords ((g :: g2 :: gs'').map joinWords)
          = joinWords g ++ ' ' :: joinWords ((g2 :: gs'').map joinWords) := rfl
        _ = joinWords g ++ ' ' :: joinWords ((g2 :: gs'').flatten) := by
            rw [ih (fun x hx => hall x (List.mem_cons_of_mem _ hx))]
        _ = joinWords (g ++ (g2 :: gs'').flatten) :=
            (joinWords_append g _ hg hflat).symm
        _ = joinWords ((g :: g2 :: gs'').flatten) := rfl

theorem runChunksAcc_singleton (r : List Json) (c : String)
    (dss : List (List String)) :
    runChunksAcc r [c] dss =
      [⟨c, r, (runChunk r (dss.headD [])).snaps,
        (runChunk r (dss.headD [])).raised⟩] := by
  rcases hout : runChunk r (dss.headD []) with ⟨snaps, r', b⟩
  cases b
  · rw [runChunksAcc_cons_ok [] dss hout, runChunksAcc]
  · rw [runChunksAcc_cons_raised [] dss hout]

/-- Claim C4: for every input and chunk size `W ≥ 1`, each produced
segment has at most `W` whitespace-separated words, space-joining all
segments reconstructs the whitespace-normalized input, and the number of
segments is `⌈wordCount / W⌉`. -/
theorem c4_chunker_contract (s : String) (W : Nat) (hW : 0 < W) :
    (∀ seg ∈ split_into_chunks s W, (splitWS seg.data).length ≤ W) ∧
    String.mk (joinWords ((split_into_chunks s W).map String.data)) =
      String.mk (joinWords (splitWS s.data)) ∧
    (split_into_chunks s W).length = ((splitWS s.data).length + W - 1) / W := by
  refine ⟨?_, ?_, ?_⟩
  · intro seg hseg
    unfold split_into_chunks at hseg
    obtain ⟨g, hg, rfl⟩ := List.mem_map.1 hseg
    show (splitWS (joinWords g)).length ≤ W
    have hwords : ∀ w ∈ g, w ≠ [] ∧ ∀ c ∈ w, c.isWhitespace = false :=
      fun w hw => splitWS_words_spec s.data w
        (chunkList_mem_subset W (splitWS s.data) g hg w hw)
    rw [splitWS_join_roundtrip g hwords]
    exact chunkList_mem_length W (splitWS s.data) g hg
  · unfold split_into_chunks
    rw [List.map_map]
    have h1 : (chunkList W (splitWS s.data)).map
        (String.data ∘ fun g => String.mk (joinWords g)) =
        (chunkList W (splitWS s.data)).map joinWords := rfl
    rw [h1, joinWords_map_flatten _ (chunkList_mem_ne_nil W (splitWS s.data)),
      chunkList_flatten W _ hW]
  · unfold split_into_chunks
    rw [List.length_map, chunkList_length_eq W _ hW]

/-- Witness for C4 at input `"a b c"` with `W = 2`. -/
theorem c4_witness :
    0 < 2 ∧
    ((∀ seg ∈ split_into_chunks "a b c" 2, (splitWS seg.data).length ≤ 2) ∧
      String.mk (joinWords ((split_into_chunks "a b c" 2).map String.data)) =
        String.mk (joinWords (splitWS "a b c".data)) ∧
      (split_into_chunks "a b c" 2).length =
        ((splitWS "a b c".data).length + 2 - 1) / 2) :=
  ⟨by decide, c4_chunker_contract "a b c" 2 (by decide)⟩

/-- Claim C10: a non-empty but whitespace-only message passes the
emptiness check on `/detect` (no 400), yet the chunker yields no segment,
so zero model invocations happen and the stream trace is empty; the same
message on `/abstract` is submitted as the single chunk. -/
theorem c10_whitespace_only_message (s : String) (dss : List (List String))
    (h1 : s ≠ "") (h2 : ∀ c ∈ s.data, c.isWhitespace = true) :
    split_into_chunks s 100 = [] ∧
    detect (some s) dss = .streamResp [] ∧
    statusCode (detect (some s) dss) = 200 ∧
    invocationsOf (detect (some s) dss) = [] ∧
    invocationsOf (abstract (some s) dss) = [s] := by
  have hsw : splitWS s.data = [] :=
    splitWS_of_dropWhile_nil (dropWhile_all h2)
  have hchunks : split_into_chunks s 100 = [] := by
    unfold split_into_chunks
    rw [hsw, chunkList]
    rfl
  have hdet : detect (some s) dss = .streamResp [] := by
    simp only [detect, Option.getD_some, if_neg h1, get_response_stream,
      if_true, hchunks]
    rw [runChunksAcc]
  refine ⟨hchunks, hdet, by rw [hdet]; rfl, by rw [hdet]; rfl, ?_⟩
  have habs : abstract (some s) dss =
      .streamResp (runChunksAcc [] [s] dss) := by
    simp [abstract, h1, get_response_stream]
  rw [habs, runChunksAcc_singleton]
  rfl

/-- Witness for C10 at the one-space message. -/
theorem c10_witness :
    split_into_chunks " " 100 = [] ∧
    detect (some " ") [] = .streamResp [] ∧
    statusCode (detect (some " ") []) = 200 ∧
    invocationsOf (detect (some " ") []) = [] ∧
    invocationsOf (abstract (some " ") []) = [" "] :=
  c10_whitespace_only_message " " [] (by decide) (by decide)
